import Mathlib

/-!
Shallow embedding of the GCN notebook (`GCN_torchgeometric.ipynb`).

The repository defines a message-passing graph convolution layer
`GraphConvolution` (self-loop augmentation, linear transform, symmetric
normalization, add-aggregation), a two-layer network `Net`
(conv1 → relu → dropout → conv2 → log_softmax) and an evaluation cell
computing arg-max predictions and test accuracy.

Modelling choices:
  * a feature matrix is a function `ℕ → ℕ → ℝ` together with explicit
    dimensions where they matter;
  * the edge index (shape `2 × E`) is a `List (ℕ × ℕ)`; `e.1` is the source
    row (`edge_index[0]`), `e.2` the target row (`edge_index[1]`);
  * tensor floats are idealised as real numbers; `deg.pow(-0.5)` becomes
    `(Real.sqrt deg)⁻¹`;
  * the stochastic dropout mask is passed in explicitly as an oracle
    `ℕ → ℕ → Bool`, so training-mode randomness is a parameter;
  * the runtime errors the tensor library raises (index out of bounds in
    `degree`/gather/scatter, shape mismatch in `Linear`) are embedded as an
    `Except String` variant of the forward pass.
-/

namespace GCN

/-- Step 1 of `GraphConvolution.forward`: `torch_geometric.utils.add_self_loops`
concatenates one `(i, i)` edge for every node `i < num_nodes` onto the end of
the edge list, without any deduplication. -/
def add_self_loops (edge_index : List (ℕ × ℕ)) (num_nodes : ℕ) : List (ℕ × ℕ) :=
  edge_index ++ (List.range num_nodes).map (fun i => (i, i))

/-- The vector `torch_geometric.utils.degree(index, N)`: entry `i` counts the
occurrences of `i` in `index` (a scatter-add of ones). -/
def degree (index : List ℕ) (i : ℕ) : ℕ :=
  index.count i

/-- The degree vector the forward pass computes: `degree(row, N)` where
`row = edge_index[0]` of the self-loop-augmented edge list, i.e. the number of
occurrences of `i` among the SOURCES of the augmented edges. -/
def fwdDeg (edge_index : List (ℕ × ℕ)) (num_nodes : ℕ) (i : ℕ) : ℕ :=
  degree ((add_self_loops edge_index num_nodes).map Prod.fst) i

/-- Entry of `deg.pow(-0.5)` for a positive degree: the reciprocal square
root, idealised over the reals. -/
noncomputable def deg_inv_sqrt (d : ℕ) : ℝ :=
  (Real.sqrt (d : ℝ))⁻¹

/-- Per-edge normalization of the forward pass:
`norm = deg_inv_sqrt[row] * deg_inv_sqrt[col]`. -/
noncomputable def norm (edge_index : List (ℕ × ℕ)) (num_nodes : ℕ) (e : ℕ × ℕ) : ℝ :=
  deg_inv_sqrt (fwdDeg edge_index num_nodes e.1) * deg_inv_sqrt (fwdDeg edge_index num_nodes e.2)

/-- One row of `torch.nn.Linear(in_channels, out_channels)`:
`y = x Wᵀ + b` with `W : out_channels × in_channels`. -/
noncomputable def lin (W : ℕ → ℕ → ℝ) (b : ℕ → ℝ) (in_channels : ℕ) (v : ℕ → ℝ) : ℕ → ℝ :=
  fun o => (∑ k ∈ Finset.range in_channels, W o k * v k) + b o

/-- The message-passing propagation with `aggr = add` over a (already
augmented) edge list: for target node `i`, sum `coef e * x (source e)` over
every occurrence of an edge whose target is `i`; `message` multiplies
`x_j` by the edge coefficient and `update` is the identity. -/
noncomputable def propagate (coef : ℕ × ℕ → ℝ) (x : ℕ → ℕ → ℝ)
    (edge_index : List (ℕ × ℕ)) : ℕ → ℕ → ℝ :=
  fun i c => ((edge_index.filter (fun e => e.2 == i)).map (fun e => coef e * x e.1 c)).sum

/-- The aggregation stage of `GraphConvolution.forward` applied to an
arbitrary feature matrix: self-loop augmentation, then normalized
add-propagation with the coefficients computed from the augmented list. -/
noncomputable def aggregate (num_nodes : ℕ) (x : ℕ → ℕ → ℝ)
    (edge_index : List (ℕ × ℕ)) : ℕ → ℕ → ℝ :=
  propagate (norm edge_index num_nodes) x (add_self_loops edge_index num_nodes)

/-- The full `GraphConvolution.forward`: add self-loops, linearly transform
the features, compute the symmetric normalization from `degree(row, N)`, and
propagate messages with add-aggregation. `num_nodes` is `x.size(0)`. -/
noncomputable def forward (W : ℕ → ℕ → ℝ) (b : ℕ → ℝ) (in_channels num_nodes : ℕ)
    (x : ℕ → ℕ → ℝ) (edge_index : List (ℕ × ℕ)) : ℕ → ℕ → ℝ :=
  aggregate num_nodes (fun j => lin W b in_channels (x j)) edge_index

/-- Pointwise rectifier `F.relu`. -/
noncomputable def relu (v : ℝ) : ℝ :=
  max v 0

/-- Functional dropout `F.dropout(x, p, training)`: in training mode each
kept entry (mask true) is rescaled by `1/(1-p)` and each dropped entry is
zeroed; in evaluation mode it is the input unchanged. The Bernoulli mask is
an explicit oracle argument. -/
noncomputable def dropout (p : ℝ) (training : Bool) (mask : ℕ → ℕ → Bool)
    (x : ℕ → ℕ → ℝ) : ℕ → ℕ → ℝ :=
  fun i c => if training then (if mask i c then x i c / (1 - p) else 0) else x i c

/-- Row-wise `F.log_softmax(v, dim=1)` over `nclass` entries. -/
noncomputable def log_softmax (nclass : ℕ) (v : ℕ → ℝ) : ℕ → ℝ :=
  fun c => v c - Real.log (∑ k ∈ Finset.range nclass, Real.exp (v k))

/-- The pre-softmax part of `Net.forward`:
`conv2(dropout(relu(conv1(x)))) `. -/
noncomputable def netLogits (W1 : ℕ → ℕ → ℝ) (b1 : ℕ → ℝ) (W2 : ℕ → ℕ → ℝ) (b2 : ℕ → ℝ)
    (nfeat nhid num_nodes : ℕ) (p : ℝ) (training : Bool) (mask : ℕ → ℕ → Bool)
    (x : ℕ → ℕ → ℝ) (edge_index : List (ℕ × ℕ)) : ℕ → ℕ → ℝ :=
  let h1 := forward W1 b1 nfeat num_nodes x edge_index
  let h2 := fun i c => relu (h1 i c)
  let h3 := dropout p training mask h2
  forward W2 b2 nhid num_nodes h3 edge_index

/-- The full `Net.forward`: two graph convolutions with relu and dropout in
between, then a row-wise log-softmax over the class dimension. -/
noncomputable def netForward (W1 : ℕ → ℕ → ℝ) (b1 : ℕ → ℝ) (W2 : ℕ → ℕ → ℝ) (b2 : ℕ → ℝ)
    (nfeat nhid nclass num_nodes : ℕ) (p : ℝ) (training : Bool) (mask : ℕ → ℕ → Bool)
    (x : ℕ → ℕ → ℝ) (edge_index : List (ℕ × ℕ)) : ℕ → ℕ → ℝ :=
  fun i =>
    log_softmax nclass
      (netLogits W1 b1 W2 b2 nfeat nhid num_nodes p training mask x edge_index i)

/-- The index returned by `tensor.max(dim=1)` on one row: fold over the class
indices keeping the first position attaining the maximum. -/
noncomputable def argmax (nclass : ℕ) (v : ℕ → ℝ) : ℕ :=
  (List.range nclass).foldl (fun best j => if v best < v j then j else best) 0

/-- The evaluation cell's accuracy:
`pred[test_mask].eq(y[test_mask]).sum() / test_mask.sum()`, as a real
division of the two counts. -/
noncomputable def accuracy (num_nodes : ℕ) (test_mask : ℕ → Bool)
    (pred y : ℕ → ℕ) : ℝ :=
  (((List.range num_nodes).filter (fun i => test_mask i && (pred i == y i))).length : ℝ) /
    (((List.range num_nodes).filter (fun i => test_mask i)).length : ℝ)

/-! ### Spec-side definitions

These follow the specification's words, to be compared with the
definitions above, which are translated from the notebook. -/

/-- Spec, section 3 / step 3: the degree of node `i` as the specification
defines it, the number of edges of the (already augmented) edge list whose
TARGET is `i`. -/
def specInDeg (edge_index : List (ℕ × ℕ)) (i : ℕ) : ℕ :=
  (edge_index.map Prod.snd).count i

/-- Spec, steps 3-6: the forward pass as the specification words it, with
`degree(i)` the incoming-edge count of the augmented edge list and
coefficient `1/(sqrt(degree(i)) · sqrt(degree(j)))` for each augmented edge
`(j → i)`, summed over all incoming edges of each target node. -/
noncomputable def specForwardIn (W : ℕ → ℕ → ℝ) (b : ℕ → ℝ) (in_channels num_nodes : ℕ)
    (x : ℕ → ℕ → ℝ) (edge_index : List (ℕ × ℕ)) : ℕ → ℕ → ℝ :=
  let ei := add_self_loops edge_index num_nodes
  fun i c =>
    ((ei.filter (fun e => e.2 == i)).map
      (fun e => deg_inv_sqrt (specInDeg ei e.2) * deg_inv_sqrt (specInDeg ei e.1) *
        lin W b in_channels (x e.1) c)).sum

/-- Spec (claim about commuting the affine map): the alternative ordering in
which the raw features are normalized and aggregated first and the learned
affine map is applied only afterwards. -/
noncomputable def forwardLinAfter (W : ℕ → ℕ → ℝ) (b : ℕ → ℝ) (in_channels num_nodes : ℕ)
    (x : ℕ → ℕ → ℝ) (edge_index : List (ℕ × ℕ)) : ℕ → ℕ → ℝ :=
  fun i => lin W b in_channels (fun k => aggregate num_nodes x edge_index i k)

/-! ### Fallible forward pass

The tensor library's runtime errors, embedded as `Except`: `self.lin(x)`
raises on a shape mismatch between the width of `x` and the layer's
`in_channels`; `degree` (a scatter-add), the gathers `deg_inv_sqrt[row]`,
`deg_inv_sqrt[col]` and the scatter of `propagate` raise on any index
outside `[0, N)`. -/

/-- Fallible row-wise linear layer: `torch.nn.Linear` raises when the width
`x_cols` of its input does not equal `in_channels`. -/
noncomputable def linE (W : ℕ → ℕ → ℝ) (b : ℕ → ℝ) (in_channels x_cols : ℕ)
    (x : ℕ → ℕ → ℝ) : Except String (ℕ → ℕ → ℝ) :=
  if x_cols == in_channels then
    Except.ok (fun j => lin W b in_channels (x j))
  else
    Except.error "mat1 and mat2 shapes cannot be multiplied"

/-- Fallible `degree(index, N)`: the underlying scatter-add raises when some
entry of `index` is outside `[0, N)`. -/
def degreeE (index : List ℕ) (num_nodes : ℕ) : Except String (ℕ → ℕ) :=
  if index.all (fun a => a < num_nodes) then
    Except.ok (fun i => degree index i)
  else
    Except.error "index out of bounds"

/-- Fallible tensor gather `v[index]` against a vector of length `N`. -/
noncomputable def gatherE (v : ℕ → ℝ) (index : List ℕ) (num_nodes : ℕ) :
    Except String (List ℝ) :=
  if index.all (fun a => a < num_nodes) then
    Except.ok (index.map v)
  else
    Except.error "index out of bounds"

/-- The forward pass with the library's failure behaviour: shape check at the
linear layer, then index checks at the degree scatter over `row` and at the
gather over `col`; when nothing raises, the result is the pure forward pass. -/
noncomputable def forwardE (W : ℕ → ℕ → ℝ) (b : ℕ → ℝ) (in_channels num_nodes x_cols : ℕ)
    (x : ℕ → ℕ → ℝ) (edge_index : List (ℕ × ℕ)) : Except String (ℕ → ℕ → ℝ) := do
  let ei := add_self_loops edge_index num_nodes
  let _x ← linE W b in_channels x_cols x
  let deg ← degreeE (ei.map Prod.fst) num_nodes
  let _dcol ← gatherE (fun i => deg_inv_sqrt (deg i)) (ei.map Prod.snd) num_nodes
  pure (forward W b in_channels num_nodes x edge_index)

/-! ### Helper lemmas -/

lemma loops_fst (n : ℕ) :
    ((List.range n).map (fun j => ((j, j) : ℕ × ℕ))).map Prod.fst = List.range n := by
  simp [List.map_map, Function.comp_def]

lemma count_loops (n i : ℕ) (h : i < n) :
    ((List.range n).map (fun j => ((j, j) : ℕ × ℕ))).count (i, i) = 1 := by
  induction n with
  | zero => omega
  | succ m ih =>
    rw [List.range_succ, List.map_append, List.count_append]
    rcases Nat.lt_or_ge i m with hm | hm
    · rw [ih hm]
      have hne : ((m, m) : ℕ × ℕ) ≠ (i, i) := by
        intro hc
        have := congrArg Prod.fst hc
        simp at this
        omega
      simp [List.count_singleton, hne]
    · have him : i = m := by omega
      subst him
      have h0 : ((List.range i).map (fun j => ((j, j) : ℕ × ℕ))).count (i, i) = 0 := by
        refine List.count_eq_zero_of_not_mem ?_
        intro hc
        rcases List.mem_map.mp hc with ⟨j, hj, hji⟩
        have hj' : j < i := List.mem_range.mp hj
        have := congrArg Prod.fst hji
        simp at this
        omega
      simp [h0]

lemma filter_loops_target (n i : ℕ) (h : i < n) :
    ((List.range n).map (fun j => ((j, j) : ℕ × ℕ))).filter (fun e => e.2 == i) = [(i, i)] := by
  induction n with
  | zero => omega
  | succ m ih =>
    rw [List.range_succ, List.map_append, List.filter_append]
    rcases Nat.lt_or_ge i m with hm | hm
    · rw [ih hm]
      have hne : (((m, m) : ℕ × ℕ).2 == i) = false := by
        simp
        omega
      simp [hne]
    · have him : i = m := by omega
      subst him
      have h1 : ((List.range i).map (fun j => ((j, j) : ℕ × ℕ))).filter
          (fun e => e.2 == i) = [] := by
        refine List.filter_eq_nil_iff.mpr ?_
        intro e he
        rcases List.mem_map.mp he with ⟨j, hj, rfl⟩
        have : j < i := List.mem_range.mp hj
        simp
        omega
      simp [h1]

lemma one_le_fwdDeg (edge_index : List (ℕ × ℕ)) (n i : ℕ) (h : i < n) :
    1 ≤ fwdDeg edge_index n i := by
  simp only [fwdDeg, degree, add_self_loops, List.map_append, List.count_append, loops_fst]
  have : 1 ≤ (List.range n).count i := by
    have := List.count_pos_iff.mpr (List.mem_range.mpr h)
    omega
  omega

lemma deg_inv_sqrt_one : deg_inv_sqrt 1 = 1 := by
  simp [deg_inv_sqrt]

lemma deg_inv_sqrt_two_mul_self : deg_inv_sqrt 2 * deg_inv_sqrt 2 = 1 / 2 := by
  rw [deg_inv_sqrt, ← mul_inv]
  rw [show ((2 : ℕ) : ℝ) = 2 by norm_num]
  rw [Real.mul_self_sqrt (by norm_num)]
  norm_num

lemma deg_inv_sqrt_pos (d : ℕ) (hd : 1 ≤ d) : 0 < deg_inv_sqrt d := by
  rw [deg_inv_sqrt]
  refine inv_pos.mpr (Real.sqrt_pos.mpr ?_)
  exact_mod_cast hd

lemma list_sum_finset_sum {α : Type} (l : List α) (s : Finset ℕ) (f : α → ℕ → ℝ) :
    (l.map (fun a => ∑ k ∈ s, f a k)).sum = ∑ k ∈ s, (l.map (fun a => f a k)).sum := by
  induction l with
  | nil => simp
  | cons a t ih => simp [ih, Finset.sum_add_distrib]

lemma sum_exp_log_softmax (nclass : ℕ) (hC : 0 < nclass) (v : ℕ → ℝ) :
    ∑ c ∈ Finset.range nclass, Real.exp (log_softmax nclass v c) = 1 := by
  have hne : (Finset.range nclass).Nonempty := Finset.nonempty_range_iff.mpr hC.ne'
  have hS : 0 < ∑ k ∈ Finset.range nclass, Real.exp (v k) :=
    Finset.sum_pos (fun k _ => Real.exp_pos _) hne
  simp only [log_softmax, Real.exp_sub, Real.exp_log hS]
  rw [← Finset.sum_div]
  exact div_self hS.ne'

lemma argmax_sub_const (nclass : ℕ) (v : ℕ → ℝ) (K : ℝ) :
    argmax nclass (fun c => v c - K) = argmax nclass v := by
  unfold argmax
  suffices h : ∀ (l : List ℕ) (b : ℕ),
      l.foldl (fun best j => if v best - K < v j - K then j else best) b =
        l.foldl (fun best j => if v best < v j then j else best) b from h _ 0
  intro l
  induction l with
  | nil => intro b; rfl
  | cons a t ih =>
    intro b
    simp only [List.foldl_cons]
    rw [show (if v b - K < v a - K then a else b) = (if v b < v a then a else b) by
      simp [sub_lt_sub_iff_right]]
    exact ih _

lemma dropout_eval (p : ℝ) (mask : ℕ → ℕ → Bool) (x : ℕ → ℕ → ℝ) :
    dropout p false mask x = x := by
  funext i c
  simp [dropout]

lemma dropout_keep_all (x : ℕ → ℕ → ℝ) :
    dropout 0 true (fun _ _ => true) x = x := by
  funext i c
  simp [dropout]

lemma aug_src_all (edge_index : List (ℕ × ℕ)) (n : ℕ)
    (h : ∀ e ∈ edge_index, e.1 < n) :
    (((add_self_loops edge_index n).map Prod.fst).all (fun a => a < n)) = true := by
  refine List.all_eq_true.mpr ?_
  intro a ha
  rcases List.mem_map.mp ha with ⟨e, he, rfl⟩
  rcases List.mem_append.mp he with hE | hL
  · simpa using h e hE
  · rcases List.mem_map.mp hL with ⟨j, hj, rfl⟩
    simpa using List.mem_range.mp hj

lemma aug_tgt_all (edge_index : List (ℕ × ℕ)) (n : ℕ)
    (h : ∀ e ∈ edge_index, e.2 < n) :
    (((add_self_loops edge_index n).map Prod.snd).all (fun a => a < n)) = true := by
  refine List.all_eq_true.mpr ?_
  intro a ha
  rcases List.mem_map.mp ha with ⟨e, he, rfl⟩
  rcases List.mem_append.mp he with hE | hL
  · simpa using h e hE
  · rcases List.mem_map.mp hL with ⟨j, hj, rfl⟩
    simpa using List.mem_range.mp hj

lemma forwardE_ok (W : ℕ → ℕ → ℝ) (b : ℕ → ℝ) (in_channels num_nodes x_cols : ℕ)
    (x : ℕ → ℕ → ℝ) (edge_index : List (ℕ × ℕ))
    (h1 : x_cols = in_channels)
    (h2 : ∀ e ∈ edge_index, e.1 < num_nodes ∧ e.2 < num_nodes) :
    forwardE W b in_channels num_nodes x_cols x edge_index =
      Except.ok (forward W b in_channels num_nodes x edge_index) := by
  have hs := aug_src_all edge_index num_nodes (fun e he => (h2 e he).1)
  have ht := aug_tgt_all edge_index num_nodes (fun e he => (h2 e he).2)
  simp [forwardE, linE, degreeE, gatherE, h1, hs, ht, Bind.bind, Except.bind, pure, Except.pure]

lemma forwardE_shape_err (W : ℕ → ℕ → ℝ) (b : ℕ → ℝ) (in_channels num_nodes x_cols : ℕ)
    (x : ℕ → ℕ → ℝ) (edge_index : List (ℕ × ℕ))
    (h1 : x_cols ≠ in_channels) :
    forwardE W b in_channels num_nodes x_cols x edge_index =
      Except.error "mat1 and mat2 shapes cannot be multiplied" := by
  simp [forwardE, linE, h1, Bind.bind, Except.bind, pure, Except.pure]

lemma forwardE_index_err (W : ℕ → ℕ → ℝ) (b : ℕ → ℝ) (in_channels num_nodes x_cols : ℕ)
    (x : ℕ → ℕ → ℝ) (edge_index : List (ℕ × ℕ))
    (h2 : ¬ ∀ e ∈ edge_index, e.1 < num_nodes ∧ e.2 < num_nodes) :
    forwardE W b in_channels num_nodes x_cols x edge_index =
      Except.error "mat1 and mat2 shapes cannot be multiplied" ∨
    forwardE W b in_channels num_nodes x_cols x edge_index =
      Except.error "index out of bounds" := by
  by_cases h1 : x_cols = in_channels
  · right
    by_cases hs : (((add_self_loops edge_index num_nodes).map Prod.fst).all
        (fun a => a < num_nodes)) = true
    · have ht : (((add_self_loops edge_index num_nodes).map Prod.snd).all
          (fun a => a < num_nodes)) = false := by
        push_neg at h2
        rcases h2 with ⟨e, hmem, hlt⟩
        have he1 : e.1 < num_nodes := by
          have := List.all_eq_true.mp hs e.1
            (List.mem_map.mpr ⟨e, List.mem_append_left _ hmem, rfl⟩)
          simpa using this
        have he2 : ¬ e.2 < num_nodes := by
          have := hlt he1
          omega
        refine Bool.eq_false_iff.mpr ?_
        intro hc
        exact he2 (by
          have := List.all_eq_true.mp hc e.2
            (List.mem_map.mpr ⟨e, List.mem_append_left _ hmem, rfl⟩)
          simpa using this)
      simp [forwardE, linE, degreeE, gatherE, h1, hs, ht, Bind.bind, Except.bind, pure,
        Except.pure]
    · have hs' : (((add_self_loops edge_index num_nodes).map Prod.fst).all
          (fun a => a < num_nodes)) = false := Bool.eq_false_iff.mpr hs
      simp [forwardE, linE, degreeE, h1, hs', Bind.bind, Except.bind, pure, Except.pure]
  · left
    exact forwardE_shape_err W b in_channels num_nodes x_cols x edge_index h1

lemma c1_fwd_val :
    forward (fun _ _ => 1) (fun _ => 0) 1 2
      (fun i _ => if i = 1 then (1 : ℝ) else 0) [(0, 1)] 1 0 = 1 := by
  have hlist : add_self_loops [(0, 1)] 2 = [(0, 1), (0, 0), (1, 1)] := rfl
  have hfilter : (([(0, 1), (0, 0), (1, 1)] : List (ℕ × ℕ)).filter (fun e => e.2 == 1)) =
      [(0, 1), (1, 1)] := rfl
  have hd0 : fwdDeg [(0, 1)] 2 0 = 2 := rfl
  have hd1 : fwdDeg [(0, 1)] 2 1 = 1 := rfl
  simp only [forward, aggregate, propagate, hlist, hfilter, List.map_cons, List.map_nil,
    List.sum_cons, List.sum_nil, norm, hd0, hd1, deg_inv_sqrt_one, lin,
    Finset.sum_range_one]
  norm_num

lemma c1_spec_val :
    specForwardIn (fun _ _ => 1) (fun _ => 0) 1 2
      (fun i _ => if i = 1 then (1 : ℝ) else 0) [(0, 1)] 1 0 = 1 / 2 := by
  have hlist : add_self_loops [(0, 1)] 2 = [(0, 1), (0, 0), (1, 1)] := rfl
  have hfilter : (([(0, 1), (0, 0), (1, 1)] : List (ℕ × ℕ)).filter (fun e => e.2 == 1)) =
      [(0, 1), (1, 1)] := rfl
  have hd0 : specInDeg [(0, 1), (0, 0), (1, 1)] 0 = 1 := rfl
  have hd1 : specInDeg [(0, 1), (0, 0), (1, 1)] 1 = 2 := rfl
  simp only [specForwardIn, hlist, hfilter, List.map_cons, List.map_nil,
    List.sum_cons, List.sum_nil, hd0, hd1, deg_inv_sqrt_one, lin,
    Finset.sum_range_one]
  norm_num [deg_inv_sqrt_two_mul_self]

lemma deg_inv_sqrt_two_pos : 0 < deg_inv_sqrt 2 := by
  rw [deg_inv_sqrt]
  refine inv_pos.mpr (Real.sqrt_pos.mpr (by norm_num))

lemma c5_fwd_bias_val :
    forward (fun _ _ => 0) (fun _ => 1) 1 2 (fun _ _ => (0 : ℝ)) [(0, 1)] 1 0 =
      deg_inv_sqrt 2 + 1 := by
  have hlist : add_self_loops [(0, 1)] 2 = [(0, 1), (0, 0), (1, 1)] := rfl
  have hfilter : (([(0, 1), (0, 0), (1, 1)] : List (ℕ × ℕ)).filter (fun e => e.2 == 1)) =
      [(0, 1), (1, 1)] := rfl
  have hd0 : fwdDeg [(0, 1)] 2 0 = 2 := rfl
  have hd1 : fwdDeg [(0, 1)] 2 1 = 1 := rfl
  simp only [forward, aggregate, propagate, hlist, hfilter, List.map_cons, List.map_nil,
    List.sum_cons, List.sum_nil, norm, hd0, hd1, deg_inv_sqrt_one, lin,
    Finset.sum_range_one]
  ring

lemma c5_after_bias_val :
    forwardLinAfter (fun _ _ => 0) (fun _ => 1) 1 2 (fun _ _ => (0 : ℝ)) [(0, 1)] 1 0 = 1 := by
  simp [forwardLinAfter, lin]

/-! ### The claims -/

/-- C1 counterexample: on the directed edge list `[(0, 1)]` with two nodes,
one input channel, identity weight and zero bias, the value the forward pass
computes at node 1 differs from the specification's formula (whose degree is
the incoming-edge count of the augmented edge list): the code yields `1`
while the spec formula yields `1/2`. -/
theorem c1_counterexample :
    forward (fun _ _ => 1) (fun _ => 0) 1 2
      (fun i _ => if i = 1 then (1 : ℝ) else 0) [(0, 1)] 1 0 ≠
    specForwardIn (fun _ _ => 1) (fun _ => 0) 1 2
      (fun i _ => if i = 1 then (1 : ℝ) else 0) [(0, 1)] 1 0 := by
  rw [c1_fwd_val, c1_spec_val]
  norm_num

/-- C1 (amended): for every feature matrix, edge list and affine parameters,
the GraphConvolution forward pass returns, for each node `i` and channel `c`,
the sum over all edges `(j → i)` of the augmented edge list of
`coefficient(j, i) · X'[j]` with `X'` the linearly transformed features and
`coefficient(j, i) = deg_inv_sqrt(degree(i)) · deg_inv_sqrt(degree(j))`,
where `degree` is the SOURCE-occurrence count (`degree(row, N)`) of the
augmented edge list; aggregation is by summation over the incoming edge
occurrences (the "add" aggregation), not mean or max. -/
theorem c1_forward_is_normalized_incoming_sum (W : ℕ → ℕ → ℝ) (b : ℕ → ℝ)
    (in_channels num_nodes : ℕ) (x : ℕ → ℕ → ℝ) (edge_index : List (ℕ × ℕ)) (i c : ℕ) :
    forward W b in_channels num_nodes x edge_index i c =
      (((add_self_loops edge_index num_nodes).filter (fun e => e.2 == i)).map
        (fun e => deg_inv_sqrt (fwdDeg edge_index num_nodes i) *
          deg_inv_sqrt (fwdDeg edge_index num_nodes e.1) *
          lin W b in_channels (x e.1) c)).sum := by
  simp only [forward, aggregate, propagate]
  congr 1
  refine List.map_congr_left ?_
  intro e he
  have h2 : e.2 = i := by
    have := List.mem_filter.mp he
    simpa using this.2
  rw [norm, h2]
  ring

/-- C2 counterexample: on the directed edge list `[(0, 1)]` with two nodes,
the degree the forward pass uses for node 0 is `2` (it counts the augmented
edges whose SOURCE is 0), while the number of augmented edges whose target
is 0 is `1`. -/
theorem c2_counterexample :
    fwdDeg [(0, 1)] 2 0 ≠ specInDeg (add_self_loops [(0, 1)] 2) 0 := by
  decide

/-- C2 (amended): for every node `i`, the degree used for normalization in
`GraphConvolution.forward` equals the number of edges of the
self-loop-augmented edge list whose SOURCE (first row of `edge_index`) is
`i`, recomputed from the edge list on every call — not the incoming-edge
count the specification describes. -/
theorem c2_degree_counts_sources (edge_index : List (ℕ × ℕ)) (num_nodes i : ℕ) :
    fwdDeg edge_index num_nodes i =
      ((add_self_loops edge_index num_nodes).filter (fun e => e.1 == i)).length := by
  simp only [fwdDeg, degree, List.count, List.countP_map]
  rw [List.countP_eq_length_filter]
  simp [Function.comp_def]

/-- C3: the self-loop augmentation appends exactly one `(i, i)` edge for
every node `i < N`, regardless of whether such an edge is already present:
the multiplicity of `(i, i)` grows by exactly one, the degree used by the
forward pass grows by exactly one over the un-augmented source count, and
the aggregated sum splits into the contributions of the original edge
occurrences plus the appended self-loop (duplicates are summed, never
deduplicated). -/
theorem c3_self_loop_augmentation (W : ℕ → ℕ → ℝ) (b : ℕ → ℝ)
    (in_channels num_nodes : ℕ) (x : ℕ → ℕ → ℝ) (edge_index : List (ℕ × ℕ)) (i c : ℕ)
    (h : i < num_nodes) :
    (add_self_loops edge_index num_nodes).count (i, i) = edge_index.count (i, i) + 1 ∧
    fwdDeg edge_index num_nodes i = degree (edge_index.map Prod.fst) i + 1 ∧
    forward W b in_channels num_nodes x edge_index i c =
      ((edge_index.filter (fun e => e.2 == i)).map
        (fun e => norm edge_index num_nodes e * lin W b in_channels (x e.1) c)).sum +
      norm edge_index num_nodes (i, i) * lin W b in_channels (x i) c := by
  refine ⟨?_, ?_, ?_⟩
  · simp [add_self_loops, List.count_append, count_loops num_nodes i h]
  · simp only [fwdDeg, degree, add_self_loops, List.map_append, List.count_append]
    rw [loops_fst]
    rw [List.count_eq_one_of_mem (List.nodup_range num_nodes) (List.mem_range.mpr h)]
  · simp only [forward, aggregate, propagate, add_self_loops, List.filter_append,
      List.map_append, List.sum_append, filter_loops_target num_nodes i h,
      List.map_cons, List.map_nil, List.sum_cons, List.sum_nil, add_zero]

/-- C3 witness: the hypotheses of `c3_self_loop_augmentation` discharged on a
one-node graph whose edge list already holds the self-loop `(0, 0)`. -/
theorem c3_witness :
    0 < 1 ∧
    ((add_self_loops [(0, 0)] 1).count (0, 0) = ([(0, 0)] : List (ℕ × ℕ)).count (0, 0) + 1 ∧
    fwdDeg [(0, 0)] 1 0 = degree (([(0, 0)] : List (ℕ × ℕ)).map Prod.fst) 0 + 1 ∧
    forward (fun _ _ => 1) (fun _ => 0) 1 1 (fun _ _ => 1) [(0, 0)] 0 0 =
      ((([(0, 0)] : List (ℕ × ℕ)).filter (fun e => e.2 == 0)).map
        (fun e => norm [(0, 0)] 1 e * lin (fun _ _ => 1) (fun _ => 0) 1 ((fun _ _ => 1) e.1) 0)).sum +
      norm [(0, 0)] 1 (0, 0) * lin (fun _ _ => 1) (fun _ => 0) 1 ((fun _ _ => 1) 0) 0) :=
  ⟨Nat.one_pos,
    c3_self_loop_augmentation (fun _ _ => 1) (fun _ => 0) 1 1 (fun _ _ => 1) [(0, 0)] 0 0
      Nat.one_pos⟩

/-- C4: on an edge list whose endpoints are valid node indices, every node's
degree after self-loop augmentation is at least 1, and the normalization
coefficient of every augmented edge is strictly positive — the
`deg.pow(-0.5)` of a zero degree is never taken along any edge, so no
division by zero occurs. -/
theorem c4_no_division_by_zero (edge_index : List (ℕ × ℕ)) (num_nodes : ℕ)
    (hvalid : ∀ e ∈ edge_index, e.1 < num_nodes ∧ e.2 < num_nodes) :
    (∀ i, i < num_nodes → 1 ≤ fwdDeg edge_index num_nodes i) ∧
    (∀ e ∈ add_self_loops edge_index num_nodes, 0 < norm edge_index num_nodes e) := by
  refine ⟨fun i hi => one_le_fwdDeg edge_index num_nodes i hi, ?_⟩
  intro e he
  have hend : e.1 < num_nodes ∧ e.2 < num_nodes := by
    rcases List.mem_append.mp he with hE | hL
    · exact hvalid e hE
    · rcases List.mem_map.mp hL with ⟨j, hj, rfl⟩
      have := List.mem_range.mp hj
      exact ⟨this, this⟩
  rw [norm]
  exact mul_pos
    (deg_inv_sqrt_pos _ (one_le_fwdDeg edge_index num_nodes e.1 hend.1))
    (deg_inv_sqrt_pos _ (one_le_fwdDeg edge_index num_nodes e.2 hend.2))

/-- C4 witness: the validity hypothesis discharged on the two-node edge list
`[(0, 1)]`, which has an isolated-in-degree node. -/
theorem c4_witness :
    (∀ e ∈ ([(0, 1)] : List (ℕ × ℕ)), e.1 < 2 ∧ e.2 < 2) ∧
    ((∀ i, i < 2 → 1 ≤ fwdDeg [(0, 1)] 2 i) ∧
      (∀ e ∈ add_self_loops [(0, 1)] 2, 0 < norm [(0, 1)] 2 e)) :=
  ⟨by decide, c4_no_division_by_zero [(0, 1)] 2 (by decide)⟩

/-- C5 counterexample: with a nonzero bias the two orderings differ — on the
edge list `[(0, 1)]` with two nodes, zero weights, bias `1` and zero
features, applying the affine map before aggregation gives
`1/sqrt 2 + 1` at node 1 while applying it after aggregation gives `1`. -/
theorem c5_counterexample :
    forward (fun _ _ => 0) (fun _ => 1) 1 2 (fun _ _ => (0 : ℝ)) [(0, 1)] 1 0 ≠
      forwardLinAfter (fun _ _ => 0) (fun _ => 1) 1 2 (fun _ _ => (0 : ℝ)) [(0, 1)] 1 0 := by
  rw [c5_fwd_bias_val, c5_after_bias_val]
  have := deg_inv_sqrt_two_pos
  intro hc
  nlinarith

/-- C5 (amended): with zero bias the learned linear map commutes with
normalization and aggregation — applying the weight matrix to the features
before aggregating, as `GraphConvolution.forward` does, equals aggregating
the raw features first and applying the weight matrix afterwards. With a
nonzero bias the two orderings differ (see the counterexample), because the
bias is added once per node on one side and rescaled by the summed
coefficients on the other. -/
theorem c5_linear_commutes_zero_bias (W : ℕ → ℕ → ℝ) (in_channels num_nodes : ℕ)
    (x : ℕ → ℕ → ℝ) (edge_index : List (ℕ × ℕ)) (i c : ℕ) :
    forward W (fun _ => 0) in_channels num_nodes x edge_index i c =
      forwardLinAfter W (fun _ => 0) in_channels num_nodes x edge_index i c := by
  simp only [forward, forwardLinAfter, aggregate, propagate, lin, add_zero]
  simp only [Finset.mul_sum]
  rw [list_sum_finset_sum]
  refine Finset.sum_congr rfl ?_
  intro k _
  rw [← List.sum_map_mul_left]
  congr 1
  refine List.map_congr_left ?_
  intro e _
  ring

/-- C6: for every input and mode, every row of the full Net forward pass is
a valid log-probability distribution — the exponentials of the `nclass`
entries of the output row sum to exactly 1 (the log-softmax round-trip
property), provided the class dimension is nonempty. -/
theorem c6_log_softmax_rows_normalized (W1 : ℕ → ℕ → ℝ) (b1 : ℕ → ℝ)
    (W2 : ℕ → ℕ → ℝ) (b2 : ℕ → ℝ) (nfeat nhid nclass num_nodes : ℕ) (p : ℝ)
    (training : Bool) (mask : ℕ → ℕ → Bool) (x : ℕ → ℕ → ℝ)
    (edge_index : List (ℕ × ℕ)) (i : ℕ) (hC : 0 < nclass) :
    ∑ c ∈ Finset.range nclass,
      Real.exp (netForward W1 b1 W2 b2 nfeat nhid nclass num_nodes p training mask
        x edge_index i c) = 1 :=
  sum_exp_log_softmax nclass hC _

/-- C6 witness: the class-dimension hypothesis discharged on a one-node,
one-class network with zero weights. -/
theorem c6_witness :
    0 < 1 ∧
    ∑ c ∈ Finset.range 1,
      Real.exp (netForward (fun _ _ => 0) (fun _ => 0) (fun _ _ => 0) (fun _ => 0)
        1 1 1 1 0 false (fun _ _ => false) (fun _ _ => 0) [] 0 c) = 1 :=
  ⟨Nat.one_pos,
    c6_log_softmax_rows_normalized (fun _ _ => 0) (fun _ => 0) (fun _ _ => 0) (fun _ => 0)
      1 1 1 1 0 false (fun _ _ => false) (fun _ _ => 0) [] 0 Nat.one_pos⟩

/-- C7: in evaluation mode dropout is the identity, so the Net forward pass
is deterministic — its output does not depend on the Bernoulli mask — and
dropout is the only stage where the training flag enters: whenever the
dropout stage itself degenerates to the identity (keep-everything mask with
`p = 0`), training mode computes exactly the evaluation-mode output. -/
theorem c7_eval_mode_deterministic :
    (∀ (p : ℝ) (mask : ℕ → ℕ → Bool) (x : ℕ → ℕ → ℝ), dropout p false mask x = x) ∧
    (∀ (W1 : ℕ → ℕ → ℝ) (b1 : ℕ → ℝ) (W2 : ℕ → ℕ → ℝ) (b2 : ℕ → ℝ)
        (nfeat nhid nclass num_nodes : ℕ) (p : ℝ) (m1 m2 : ℕ → ℕ → Bool)
        (x : ℕ → ℕ → ℝ) (edge_index : List (ℕ × ℕ)),
      netForward W1 b1 W2 b2 nfeat nhid nclass num_nodes p false m1 x edge_index =
        netForward W1 b1 W2 b2 nfeat nhid nclass num_nodes p false m2 x edge_index) ∧
    (∀ (W1 : ℕ → ℕ → ℝ) (b1 : ℕ → ℝ) (W2 : ℕ → ℕ → ℝ) (b2 : ℕ → ℝ)
        (nfeat nhid nclass num_nodes : ℕ) (m : ℕ → ℕ → Bool)
        (x : ℕ → ℕ → ℝ) (edge_index : List (ℕ × ℕ)),
      netForward W1 b1 W2 b2 nfeat nhid nclass num_nodes 0 true (fun _ _ => true)
          x edge_index =
        netForward W1 b1 W2 b2 nfeat nhid nclass num_nodes 0 false m x edge_index) := by
  refine ⟨fun p mask x => dropout_eval p mask x, ?_, ?_⟩
  · intro W1 b1 W2 b2 nfeat nhid nclass num_nodes p m1 m2 x edge_index
    funext i c
    simp only [netForward, netLogits, dropout_eval]
  · intro W1 b1 W2 b2 nfeat nhid nclass num_nodes m x edge_index
    funext i c
    simp only [netForward, netLogits, dropout_eval, dropout_keep_all]

/-- C8: the reported accuracy is the number of correct test-set predictions
divided by the number of test-set nodes; with an all-true test mask and a
model whose per-row arg-max always matches the ground-truth label, it equals
exactly 1. -/
theorem c8_perfect_predictions_accuracy_one (num_nodes nclass : ℕ)
    (out : ℕ → ℕ → ℝ) (y : ℕ → ℕ) (test_mask : ℕ → Bool)
    (hmask : ∀ i, test_mask i = true)
    (hpred : ∀ i, i < num_nodes → argmax nclass (out i) = y i)
    (hn : 0 < num_nodes) :
    accuracy num_nodes test_mask (fun i => argmax nclass (out i)) y = 1 := by
  have h1 : (List.range num_nodes).filter (fun i => test_mask i) = List.range num_nodes :=
    List.filter_eq_self.mpr (fun i _ => hmask i)
  have h2 : (List.range num_nodes).filter
      (fun i => test_mask i && (argmax nclass (out i) == y i)) = List.range num_nodes := by
    refine List.filter_eq_self.mpr ?_
    intro i hi
    have hlt : i < num_nodes := List.mem_range.mp hi
    simp [hmask i, hpred i hlt]
  rw [accuracy, h1, h2, List.length_range]
  exact div_self (Nat.cast_ne_zero.mpr hn.ne')

/-- C8 witness: the hypotheses discharged on a three-node, one-class
instance whose constant output makes the arg-max 0 everywhere. -/
theorem c8_witness :
    (∀ i, (fun _ : ℕ => true) i = true) ∧
    (∀ i, i < 3 → argmax 1 ((fun _ _ => (0 : ℝ)) i) = (fun _ : ℕ => 0) i) ∧
    0 < 3 ∧
    accuracy 3 (fun _ => true) (fun i => argmax 1 ((fun _ _ => (0 : ℝ)) i))
      (fun _ => 0) = 1 :=
  ⟨fun _ => rfl, fun i _ => by simp [argmax, List.range_succ], by norm_num,
    c8_perfect_predictions_accuracy_one 3 1 (fun _ _ => 0) (fun _ => 0) (fun _ => true)
      (fun _ => rfl) (fun i _ => by simp [argmax, List.range_succ]) (by norm_num)⟩

/-- C9: the embedded forward pass with the tensor library's failure
behaviour succeeds (returning exactly the pure forward result) precisely on
valid inputs — feature width matching the declared input-channel count and
every edge endpoint inside `[0, N)` — and signals an error, with no
malformed output and no retry, exactly on the invalid ones. -/
theorem c9_forward_fails_iff_invalid_input (W : ℕ → ℕ → ℝ) (b : ℕ → ℝ)
    (in_channels num_nodes x_cols : ℕ) (x : ℕ → ℕ → ℝ) (edge_index : List (ℕ × ℕ)) :
    (forwardE W b in_channels num_nodes x_cols x edge_index =
        Except.ok (forward W b in_channels num_nodes x edge_index) ↔
      (x_cols = in_channels ∧ ∀ e ∈ edge_index, e.1 < num_nodes ∧ e.2 < num_nodes)) ∧
    ((∃ msg, forwardE W b in_channels num_nodes x_cols x edge_index = Except.error msg) ↔
      ¬(x_cols = in_channels ∧ ∀ e ∈ edge_index, e.1 < num_nodes ∧ e.2 < num_nodes)) := by
  have herr : ¬(x_cols = in_channels ∧ ∀ e ∈ edge_index, e.1 < num_nodes ∧ e.2 < num_nodes) →
      ∃ msg, forwardE W b in_channels num_nodes x_cols x edge_index = Except.error msg := by
    intro hc
    by_cases h1 : x_cols = in_channels
    · have h2 : ¬ ∀ e ∈ edge_index, e.1 < num_nodes ∧ e.2 < num_nodes :=
        fun hall => hc ⟨h1, hall⟩
      rcases forwardE_index_err W b in_channels num_nodes x_cols x edge_index h2 with h | h
      · exact ⟨_, h⟩
      · exact ⟨_, h⟩
    · exact ⟨_, forwardE_shape_err W b in_channels num_nodes x_cols x edge_index h1⟩
  constructor
  · constructor
    · intro hok
      by_contra hc
      rcases herr hc with ⟨msg, hmsg⟩
      rw [hok] at hmsg
      exact Except.noConfusion hmsg
    · rintro ⟨h1, h2⟩
      exact forwardE_ok W b in_channels num_nodes x_cols x edge_index h1 h2
  · constructor
    · rintro ⟨msg, hmsg⟩ ⟨h1, h2⟩
      rw [forwardE_ok W b in_channels num_nodes x_cols x edge_index h1 h2] at hmsg
      exact Except.noConfusion hmsg
    · exact herr

/-- C10: the per-node arg-max of the Net output after the final log-softmax
equals the per-node arg-max of the pre-softmax logits of the second
convolution (the log-softmax subtracts one constant from every entry of a
row, a strictly monotone change), so the predicted classes and the reported
accuracy are unchanged if the final log-softmax is dropped. -/
theorem c10_argmax_invariant_under_log_softmax (W1 : ℕ → ℕ → ℝ) (b1 : ℕ → ℝ)
    (W2 : ℕ → ℕ → ℝ) (b2 : ℕ → ℝ) (nfeat nhid nclass num_nodes : ℕ) (p : ℝ)
    (training : Bool) (mask : ℕ → ℕ → Bool) (x : ℕ → ℕ → ℝ)
    (edge_index : List (ℕ × ℕ)) (y : ℕ → ℕ) (test_mask : ℕ → Bool) :
    (∀ i, argmax nclass
        (netForward W1 b1 W2 b2 nfeat nhid nclass num_nodes p training mask x edge_index i) =
      argmax nclass
        (netLogits W1 b1 W2 b2 nfeat nhid num_nodes p training mask x edge_index i)) ∧
    accuracy num_nodes test_mask (fun i => argmax nclass
        (netForward W1 b1 W2 b2 nfeat nhid nclass num_nodes p training mask x edge_index i)) y =
      accuracy num_nodes test_mask (fun i => argmax nclass
        (netLogits W1 b1 W2 b2 nfeat nhid num_nodes p training mask x edge_index i)) y := by
  have hp : ∀ i, argmax nclass
      (netForward W1 b1 W2 b2 nfeat nhid nclass num_nodes p training mask x edge_index i) =
    argmax nclass
      (netLogits W1 b1 W2 b2 nfeat nhid num_nodes p training mask x edge_index i) := by
    intro i
    have hrow : netForward W1 b1 W2 b2 nfeat nhid nclass num_nodes p training mask
        x edge_index i =
      fun c => netLogits W1 b1 W2 b2 nfeat nhid num_nodes p training mask x edge_index i c -
        Real.log (∑ k ∈ Finset.range nclass,
          Real.exp (netLogits W1 b1 W2 b2 nfeat nhid num_nodes p training mask
            x edge_index i k)) := rfl
    rw [hrow, argmax_sub_const]
  refine ⟨hp, ?_⟩
  have hfun : (fun i => argmax nclass
      (netForward W1 b1 W2 b2 nfeat nhid nclass num_nodes p training mask x edge_index i)) =
    fun i => argmax nclass
      (netLogits W1 b1 W2 b2 nfeat nhid num_nodes p training mask x edge_index i) :=
    funext hp
  rw [hfun]

end GCN
